import Mathlib

/-!
Verification development for the Flipper-Scripts IR reconciliation engine
(`infrared/decoded-ir-cleaner.py`, with the encoding-fallback reader of
`infrared/decode-irdb-cli.py`).

The Python code is shallowly embedded: every definition below mirrors one
function (or one loop) of the source, list-by-list and branch-by-branch.
Python strings become Lean `String` (logically a list of `Char`); all string
primitives used by the code (`strip`, `lower`, `startswith`, `rstrip`,
`replace`, `split(',')`, `splitlines`) are re-implemented on the character
list so that concrete runs reduce inside the kernel.  Compiled regular
expressions from Python's `re` module are abstracted by their observable
behaviour: a compiled pattern is modelled as the Boolean function
`String → Bool` implementing `bool(pattern.match(s))` (a match anchored at
the start of `s`, as `re.match` performs).  Python's insertion-ordered
`dict` is modelled as an association list whose update-in-place keeps the
original position of an existing key.
-/

namespace IRClean

/-! ## Character/string primitives (models of the Python `str` methods) -/

/-- Whitespace test used for `str.strip` and the `\s` class of the name
regex.  Python also strips a few rare control/unicode spaces; the files
handled by the tool are newline-split text lines, for which this agrees. -/
def isWS (c : Char) : Bool := c = ' ' || c = '\t' || c = '\n' || c = '\r'

/-- Drop trailing whitespace from a character list (the right half of
`str.strip`). -/
def dropTrailWS : List Char → List Char
  | [] => []
  | c :: cs =>
    let r := dropTrailWS cs
    if r.isEmpty && isWS c then [] else c :: r

/-- `str.strip()` on the character list. -/
def trimChars (cs : List Char) : List Char := dropTrailWS (cs.dropWhile isWS)

/-- `str.strip()`. -/
def strTrim (s : String) : String := ⟨trimChars s.data⟩

/-- `str.lower()` (ASCII case folding; the rule-set data is ASCII). -/
def strLower (s : String) : String := ⟨s.data.map Char.toLower⟩

/-- `s.startswith(p)`. -/
def strStartsWith (s p : String) : Bool := p.data.isPrefixOf s.data

/-- `line.rstrip('\n')`. -/
def rstripNewlines (s : String) : String :=
  ⟨(s.data.reverse.dropWhile (fun c => c = '\n')).reverse⟩

/-- `file_path.replace('\\', '/')`. -/
def replaceBS (s : String) : String :=
  ⟨s.data.map (fun c => if c = '\\' then '/' else c)⟩

/-- `s.split(',')` on the character list. -/
def splitCommaChars : List Char → List (List Char)
  | [] => [[]]
  | c :: rest =>
    let r := splitCommaChars rest
    if c = ',' then [] :: r
    else
      match r with
      | h :: t => (c :: h) :: t
      | [] => [[c]]

/-- `s.split(',')`. -/
def splitComma (s : String) : List String := (splitCommaChars s.data).map String.mk

/-- Split a character list at newline characters. -/
def splitNLChars : List Char → List (List Char)
  | [] => [[]]
  | c :: rest =>
    let r := splitNLChars rest
    if c = '\n' then [] :: r
    else
      match r with
      | h :: t => (c :: h) :: t
      | [] => [[c]]

/-- `str.splitlines()` for newline-separated text (the tool writes files
with `newline='\n'`; other line terminators do not occur in its data):
split at every newline and drop the final empty piece a trailing newline
would produce. -/
def pySplitlines (s : String) : List String :=
  let ps := (splitNLChars s.data).map String.mk
  if ps.getLast? = some "" then ps.dropLast else ps

/-- Case-insensitive removal of a literal prefix; `none` when the prefix is
absent.  Used for the `name` keyword of the record-start regex. -/
def dropPrefixCI : List Char → List Char → Option (List Char)
  | [], cs => some cs
  | _ :: _, [] => none
  | p :: ps, c :: cs => if p.toLower = c.toLower then dropPrefixCI ps cs else none

/-- The record-start regex `^name\s*:\s*(.*)$` (with `re.IGNORECASE`),
applied by the parser to the stripped line: consumes `name`, optional
whitespace, `:`, optional whitespace, and returns the capture group
(the rest of the line). -/
def parseNameTail (cs : List Char) : Option (List Char) :=
  match dropPrefixCI ['n', 'a', 'm', 'e'] cs with
  | none => none
  | some rest =>
    match rest.dropWhile isWS with
    | ':' :: rest2 => some (rest2.dropWhile isWS)
    | _ => none

/-- `re.match(r'^name\s*:\s*(.*)$', line.strip(), re.IGNORECASE)`, returning
the capture group. -/
def parseNameLine (line : String) : Option String :=
  (parseNameTail (strTrim line).data).map String.mk

/-! ## Record parser (`clean_and_deduplicate`, lines 128–211) -/

/-- Source tag of a signal record. -/
inductive Source where
  | decoded
  | original
deriving DecidableEq, Repr

/-- One parsed signal record (`all_signals` entry dictionary). -/
structure IREntry where
  name : String
  comments : List String
  signal : List String
  source : Source
deriving DecidableEq, Repr

/-- Mutable scan state of the per-source parsing loop: `current_signal`,
`current_comments`, `current_signal_name`. -/
structure ScanState where
  sig : List String
  comments : List String
  name : String
deriving Repr

/-- Flushing the in-progress record into `all_signals`
(`name_value = current_signal_name.strip()`). -/
def mkEntry (st : ScanState) (src : Source) : IREntry :=
  { name := strTrim st.name, comments := st.comments, signal := st.sig, source := src }

/-- The `for line in content + ['#']` loop of `clean_and_deduplicate`
(lines 166–202) plus the trailing flush (lines 203–211, reached with the
state left by the loop).  The branch order is the Python order: record
start, comment line, blank line, field line. -/
def scanLines (src : Source) (st : ScanState) : List String → List IREntry
  | [] =>
    if !st.sig.isEmpty && st.name ≠ "" then [mkEntry st src] else []
  | line :: rest =>
    let l := rstripNewlines line
    match parseNameLine l with
    | some nm =>
      if !st.sig.isEmpty && st.name ≠ "" then
        mkEntry st src :: scanLines src { sig := [l], comments := [], name := strTrim nm } rest
      else
        scanLines src { sig := st.sig ++ [l], comments := st.comments, name := strTrim nm } rest
    | none =>
      if strStartsWith (strTrim l) "#" then
        if !st.sig.isEmpty && st.name ≠ "" then
          mkEntry st src ::
            scanLines src { sig := [], comments := st.comments ++ [l], name := "" } rest
        else
          scanLines src { sig := st.sig, comments := st.comments ++ [l], name := st.name } rest
      else if strTrim l = "" then
        scanLines src st rest
      else
        scanLines src { sig := st.sig ++ [l], comments := st.comments, name := st.name } rest

/-- Parse one source's content: the loop runs over `content + ['#']` so the
last in-progress record is flushed. -/
def processSignals (src : Source) (content : List String) : List IREntry :=
  scanLines src { sig := [], comments := [], name := "" } (content ++ ["#"])

/-- Header/leading-comment test shared by the initial-content extraction and
the decoded-header skip (lines 132, 148). -/
def isInitialLine (l : String) : Bool :=
  strStartsWith (strTrim l) "#" || strStartsWith (strTrim l) "Filetype:" ||
    strStartsWith (strTrim l) "Version:"

/-- Pop elements from the right while they satisfy `p` (the Python
`while ...: pop()` loops). -/
def dropWhileRight (p : String → Bool) (l : List String) : List String :=
  (l.reverse.dropWhile p).reverse

/-- `cleaned_content and cleaned_content[-1].strip() == '#'`. -/
def endsWithHash (l : List String) : Bool :=
  match l.getLast? with
  | some la => strTrim la = "#"
  | none => false

/-- Extraction and normalization of the original file's header block
(lines 129–141): take the leading header/comment lines, pop trailing bare
`#` lines, and append a single `#` when the result is non-empty. -/
def extract_initial (original : List String) : List String :=
  let ic := original.takeWhile isInitialLine
  let ic2 := dropWhileRight (fun l => strTrim l = "#") ic
  if !ic2.isEmpty && !endsWithHash ic2 then ic2 ++ ["#"] else ic2

/-- Removal of header lines from the decoded content (lines 143–154): the
`skip_headers` flag skips exactly the leading header-like lines. -/
def strip_decoded_headers (decoded : List String) : List String :=
  decoded.dropWhile isInitialLine

/-- The combined signal collection (lines 156–211): decoded content first
(headers stripped), then the original content after its extracted header. -/
def all_signals (original decoded : List String) : List IREntry :=
  processSignals .decoded (strip_decoded_headers decoded) ++
    processSignals .original (original.drop (extract_initial original).length)

/-! ## Name normalizer (`normalize_button_names`, lines 49–126)

A compiled `re` pattern is abstracted as the Boolean function
`String → Bool` realizing `bool(pattern.match(s))`; matcher strings are
carried pre-classified by their shape (`/.../` regex, `$group:` reference,
bare literal), exactly the three cases the Python code distinguishes by
string inspection. -/

/-- Abstraction of a compiled case-insensitive regular expression:
`p s` models `bool(p.match(s))` — `re.match` anchors at the start of `s`
only, so a match of a proper prefix of `s` counts. -/
def RePattern := String → Bool

/-- A matcher string of a `$groups` entry: `/regex/` or a bare literal. -/
inductive GPat where
  | reg (p : RePattern)
  | lit (s : String)

/-- A matcher string of a category's button table: `$group:` reference,
`/regex/`, or a bare literal. -/
inductive CatPat where
  | groupRef (g : String)
  | reg (p : RePattern)
  | lit (s : String)

/-- A compiled matcher as stored in `group_patterns` / `category_mappings`:
a compiled regex, or a lowercased literal (`pattern.lower()`). -/
inductive CPat where
  | reg (p : RePattern)
  | lit (s : String)

/-- The `name-check` rule-set structure (`$path-prefix` is unused by
`normalize_button_names`; `$`-keys other than `$groups` are skipped when
building categories, so `categories` holds exactly the non-`$` keys in
order). -/
structure Mapping where
  groups : List (String × List GPat)
  categories : List (String × List (String × List CatPat))

/-- Compilation of one group matcher string (lines 60–66). -/
def compileGPat : GPat → CPat
  | .reg p => .reg p
  | .lit s => .lit (strLower s)

/-- `group_patterns` (lines 57–67). -/
def groupPatterns (m : Mapping) : List (String × List CPat) :=
  m.groups.map (fun g => (g.1, g.2.map compileGPat))

/-- Association-list lookup (`dict` read). -/
def lookupList {α : Type} : List (String × α) → String → Option α
  | [], _ => none
  | (k, v) :: rest, n => if k = n then some v else lookupList rest n

/-- Compilation of one category matcher string (lines 88–96):
`$group:` expands to the referenced group's compiled list
(`group_patterns.get(group_name, [])`). -/
def compileCatPat (gc : List (String × List CPat)) : CatPat → List CPat
  | .groupRef g => (lookupList gc g).getD []
  | .reg p => [.reg p]
  | .lit s => [.lit (strLower s)]

/-- All suffixes of a character list, longest first. -/
def tailsList : List Char → List (List Char)
  | [] => [[]]
  | c :: s => (c :: s) :: tailsList s

/-- Wildcard match of a category pattern against the file path after the
`*` → `.*` translation, `^...$` anchoring, and `re.IGNORECASE`
(lines 79–83): `*` matches any character sequence (the remaining pattern
may resume at any suffix), all other characters match case-insensitively,
and the whole path must be consumed. -/
def wildMatchChars : List Char → List Char → Bool
  | [], s => s.isEmpty
  | p :: ps, s =>
    if p = '*' then (tailsList s).any (fun t => wildMatchChars ps t)
    else
      match s with
      | [] => false
      | c :: s2 => p.toLower = c.toLower && wildMatchChars ps s2

/-- Category pattern match against the normalized file path. -/
def categoryMatches (pat path : String) : Bool := wildMatchChars pat.data path.data

/-- `dict` merge used for `category_mappings` (lines 97–100): extend the
list at an existing key in place, otherwise insert at the end. -/
def extendAt (acc : List (String × List CPat)) (k : String) (v : List CPat) :
    List (String × List CPat) :=
  match lookupList acc k with
  | some _ =>
    acc.map (fun p => if p.1 = k then (p.1, p.2 ++ v) else p)
  | none => acc ++ [(k, v)]

/-- Merge one matching category's button table (lines 86–100). -/
def mergeButtons (gc : List (String × List CPat)) :
    List (String × List CatPat) → List (String × List CPat) → List (String × List CPat)
  | [], acc => acc
  | (std, pats) :: rest, acc =>
    mergeButtons gc rest (extendAt acc std (pats.flatMap (compileCatPat gc)))

/-- The loop over the comma-separated alternatives of one category key
(lines 76–100): each alternative that matches the path merges the (freshly
compiled) button table again. -/
def applyAlternatives (gc : List (String × List CPat)) (path : String)
    (buttons : List (String × List CatPat)) :
    List String → List (String × List CPat) → List (String × List CPat)
  | [], acc => acc
  | alt :: rest, acc =>
    let acc' := if categoryMatches (strTrim alt) path then mergeButtons gc buttons acc else acc
    applyAlternatives gc path buttons rest acc'

/-- The loop over all category keys (lines 71–100). -/
def buildCats (gc : List (String × List CPat)) (path : String) :
    List (String × List (String × List CatPat)) → List (String × List CPat) →
      List (String × List CPat)
  | [], acc => acc
  | (catKey, buttons) :: rest, acc =>
    buildCats gc path rest (applyAlternatives gc path buttons (splitComma catKey) acc)

/-- `category_mappings` for one file (lines 69–100). -/
def buildCategoryMappings (m : Mapping) (path : String) : List (String × List CPat) :=
  buildCats (groupPatterns m) path m.categories []

/-- One compiled matcher against the stripped record name (lines 109–117):
a regex matcher tests `pattern.match(original_name)`; a literal matcher
tests `original_name.lower() == pattern.strip()`. -/
def patMatches (nm : String) : CPat → Bool
  | .reg p => p nm
  | .lit s => strLower nm = strTrim s

/-- The canonical-name selection loop (lines 107–122): the first canonical
name with a matching matcher wins — but only a canonical name different
from the original name triggers the `new_name != original_name` break, so a
canonical name equal to the original never stops the scan. -/
def chooseNewName (table : List (String × List CPat)) (orig : String) : String :=
  match table with
  | [] => orig
  | (std, pats) :: rest =>
    if (pats.any (patMatches orig)) && std ≠ orig then std else chooseNewName rest orig

/-- `signal[0] = f'name: {name}'` (line 125); parser-produced records always
have a non-empty signal, so the empty case is unreachable in the pipeline. -/
def setHead : List String → String → List String
  | [], _ => []
  | _ :: t, x => x :: t

/-- The per-record body of the normalization loop (lines 105–125): pick the
new name, write the stripped name back, rewrite the first signal line, and
report whether the record counts as renamed. -/
def normalizeEntry (table : List (String × List CPat)) (e : IREntry) : IREntry × Bool :=
  let orig := strTrim e.name
  let nn := chooseNewName table orig
  let newName := strTrim nn
  ({ e with name := newName, signal := setHead e.signal ("name: " ++ newName) },
    nn ≠ orig)

/-- `normalize_button_names` (lines 49–126): normalize the path, build the
category table, rewrite every record, and count the renamed ones. -/
def normalize_button_names (sigs : List IREntry) (m : Mapping) (file_path : String) :
    List IREntry × Nat :=
  let table := buildCategoryMappings m (replaceBS file_path)
  (sigs.map (fun e => (normalizeEntry table e).1),
    sigs.countP (fun e => (normalizeEntry table e).2))

/-! ## Merge/dedup engine (lines 219–235) -/

/-- `dict` update that keeps the position of an existing key. -/
def updateSig (m : List (String × IREntry)) (n : String) (e : IREntry) :
    List (String × IREntry) :=
  m.map (fun p => if p.1 = n then (p.1, e) else p)

/-- One iteration of the dedup loop: insert a new name at the end; on a
repeat, replace only an `original` winner by a `decoded` record, and count
a removed duplicate either way. -/
def dedupStep (st : List (String × IREntry) × Nat) (e : IREntry) :
    List (String × IREntry) × Nat :=
  match lookupList st.1 e.name with
  | none => (st.1 ++ [(e.name, e)], st.2)
  | some ex =>
    (if ex.source = .original ∧ e.source = .decoded then updateSig st.1 e.name e else st.1,
      st.2 + 1)

/-- `unique_signals` and `duplicates_removed` (lines 220–235). -/
def dedupSignals (es : List IREntry) : List (String × IREntry) × Nat :=
  es.foldl dedupStep ([], 0)

/-! ## Content rebuilder (lines 237–268) -/

/-- Rebuild step for one surviving record (lines 240–251): re-add its
comment block only when the output does not already end in a bare `#`,
append the signal lines, and close with a `#` separator when missing. -/
def rebuildStep (st : List String × Nat) (e : IREntry) : List String × Nat :=
  let st1 :=
    if !e.comments.isEmpty && !endsWithHash st.1
    then (st.1 ++ e.comments, st.2 + e.comments.length) else st
  let c2 := st1.1 ++ e.signal
  (if !c2.isEmpty && !endsWithHash c2 then c2 ++ ["#"] else c2, st1.2)

/-- Trailing cleanup (lines 253–255): pop trailing blank or `#` lines. -/
def stripTrailing (l : List String) : List String :=
  dropWhileRight (fun s => strTrim s = "" || strTrim s = "#") l

/-- Separator collapsing (lines 257–268): consecutive `#` lines become one
literal `#`. -/
def collapseHashes : List String → Bool → List String
  | [], _ => []
  | l :: rest, prevHash =>
    if strTrim l = "#" then
      (if prevHash then [] else ["#"]) ++ collapseHashes rest true
    else
      l :: collapseHashes rest false

/-- The optional normalization stage of `clean_and_deduplicate`
(lines 213–217): runs only when the flag is set and a mapping is present. -/
def norm_stage (original decoded : List String) (normalize : Bool)
    (mapping : Option Mapping) (file_path : String) : List IREntry × Nat :=
  match normalize, mapping with
  | true, some m => normalize_button_names (all_signals original decoded) m file_path
  | _, _ => (all_signals original decoded, 0)

/-- The winners of the merge/dedup stage, in insertion order, as keyed by
the (possibly normalized) names. -/
def surviving (original decoded : List String) (normalize : Bool)
    (mapping : Option Mapping) (file_path : String) : List (String × IREntry) :=
  (dedupSignals (norm_stage original decoded normalize mapping file_path).1).1

/-- The rebuild stage before the trailing cleanup: header block plus the
re-serialized surviving records, with the comments-readded counter. -/
def rebuild_stage (original decoded : List String) (normalize : Bool)
    (mapping : Option Mapping) (file_path : String) : List String × Nat :=
  ((surviving original decoded normalize mapping file_path).map (·.2)).foldl
    rebuildStep (extract_initial original, 0)

/-- `clean_and_deduplicate` (lines 128–270): returns
`(cleaned_content, duplicates_removed, buttons_renamed, comments_readded)`. -/
def clean_and_deduplicate (original decoded : List String) (normalize : Bool)
    (mapping : Option Mapping) (file_path : String) :
    List String × Nat × Nat × Nat :=
  let renamed := (norm_stage original decoded normalize mapping file_path).2
  let dups := (dedupSignals (norm_stage original decoded normalize mapping file_path).1).2
  let rb := rebuild_stage original decoded normalize mapping file_path
  (collapseHashes (stripTrailing rb.1) false, dups, renamed, rb.2)

/-! ## Similarity reporter (`compare_files` lines 295–314, `summarize_diff`
lines 320–324) -/

/-- The comment lines of a line sequence (`line.strip().startswith('#')`). -/
def comment_lines (ls : List String) : List String :=
  ls.filter (fun l => strStartsWith (strTrim l) "#")

/-- `lost_comments` (lines 303–305): original comment lines absent, by
exact text membership, from the cleaned content. -/
def lost_comments (original cleaned : List String) : Nat :=
  ((comment_lines original).filter (fun c => !(comment_lines cleaned).contains c)).length

/-- `summarize_diff` (lines 320–324): counts the `+ `, `- `, `? ` marked
lines of a `difflib.Differ` delta and renders them as one flat string. -/
def summarize_diff (diff : List String) : String :=
  let added := diff.countP (fun l => strStartsWith l "+ ")
  let removed := diff.countP (fun l => strStartsWith l "- ")
  let changed := diff.countP (fun l => strStartsWith l "? ")
  s!"Added: {added}, Removed: {removed}, Changed: {changed}"

/-- Modelled from the spec: the per-file result record describes
`diff_summary` as a structured value of three non-negative integers
`{added, removed, changed}`. -/
structure DiffSummary where
  added : Nat
  removed : Nat
  changed : Nat
deriving DecidableEq, Repr

/-- Modelled from the spec: the three diff counts as a structured triple. -/
def diff_summary_spec (diff : List String) : DiffSummary :=
  { added := diff.countP (fun l => strStartsWith l "+ ")
    removed := diff.countP (fun l => strStartsWith l "- ")
    changed := diff.countP (fun l => strStartsWith l "? ") }

/-- Rendering of a structured diff summary in the format the program
actually emits. -/
def renderDiffSummary (d : DiffSummary) : String :=
  s!"Added: {d.added}, Removed: {d.removed}, Changed: {d.changed}"

/-! ## File reading (`read_file` lines 32–38 of the cleaner,
`FlipperIRDecoder.read_file_content` lines 149–161 of the CLI tool)

A file on disk is modelled by the observable outcomes of the byte-level
operations the two readers perform on it: whether opening/reading it
succeeds at the OS level, the text produced by the strict decode under each
named codec (`none` models a raised `UnicodeDecodeError`), and the text
produced by the always-succeeding UTF-8 decode with `errors='replace'`
(undecodable bytes become U+FFFD instead of raising). -/

structure SourceFile where
  openOk : Bool
  strictDecode : String → Option String
  replaceDecode : String

/-- `read_file` of `decoded-ir-cleaner.py`: opens with
`encoding='utf-8', errors='replace'` — the decode itself cannot fail — and
returns `file.read().splitlines()`; any OS-level exception is caught and
yields `None`. -/
def read_file (f : SourceFile) : Option (List String) :=
  if f.openOk then some (pySplitlines f.replaceDecode) else none

/-- The encoding list of `read_file_content` in `decode-irdb-cli.py`. -/
def encodings : List String := ["utf-8", "cp1252", "iso-8859-1", "utf-16"]

/-- `FlipperIRDecoder.read_file_content`: try each encoding in order,
catching only `UnicodeDecodeError`, and return `None` after the loop when
every strict decode fails.  (An OS-level open failure raises out of the
function uncaught; it is outside this per-encoding model.) -/
def read_file_content (f : SourceFile) : Option String :=
  encodings.findSome? f.strictDecode

/-! ## Raw rule set and the per-file compilation of its regexes
(for the batch-level error behaviour of `analyze_directories`)

`normalize_button_names` calls `re.compile` on the rule set's patterns on
every invocation, i.e. once per file inside `compare_files` /
`clean_and_deduplicate`; a `re.error` raised there is caught by the
`except` of `compare_files` (line 315).  A raw matcher carries the outcome
of `re.compile` on its pattern text: `Except.error` models the raised
`re.error`. -/

/-- A group matcher string before compilation. -/
inductive RawGPat where
  | reg (compiled : Except Unit RePattern)
  | lit (s : String)

/-- A category matcher string before compilation. -/
inductive RawCatPat where
  | groupRef (g : String)
  | reg (compiled : Except Unit RePattern)
  | lit (s : String)

/-- The rule set with uncompiled regexes. -/
structure RawMapping where
  groups : List (String × List RawGPat)
  categories : List (String × List (String × List RawCatPat))

/-- Compile one group matcher (lines 60–66); a bad regex raises. -/
def compileRawGPat : RawGPat → Except Unit CPat
  | .reg (.ok p) => .ok (.reg p)
  | .reg (.error e) => .error e
  | .lit s => .ok (.lit (strLower s))

/-- Compile one group's matcher list in order, propagating the first
raised `re.error`. -/
def compileRawGPats : List RawGPat → Except Unit (List CPat)
  | [] => .ok []
  | p :: rest =>
    match compileRawGPat p with
    | .error e => .error e
    | .ok c =>
      match compileRawGPats rest with
      | .error e => .error e
      | .ok cs => .ok (c :: cs)

/-- `group_patterns` built from the raw rule set (lines 57–67): every
group's patterns are compiled unconditionally, before any category or path
is consulted, so a bad group regex raises for every file. -/
def compileGroupsE : List (String × List RawGPat) → Except Unit (List (String × List CPat))
  | [] => .ok []
  | (g, ps) :: rest =>
    match compileRawGPats ps with
    | .error e => .error e
    | .ok cs =>
      match compileGroupsE rest with
      | .error e => .error e
      | .ok r => .ok ((g, cs) :: r)

/-- Compile one category matcher (lines 88–96) against the compiled
groups. -/
def compileRawCatPat (gc : List (String × List CPat)) : RawCatPat → Except Unit (List CPat)
  | .groupRef g => .ok ((lookupList gc g).getD [])
  | .reg (.ok p) => .ok [.reg p]
  | .reg (.error e) => .error e
  | .lit s => .ok [.lit (strLower s)]

/-- Compile a button's matcher list. -/
def compileRawCatPats (gc : List (String × List CPat)) :
    List RawCatPat → Except Unit (List CPat)
  | [] => .ok []
  | p :: rest =>
    match compileRawCatPat gc p with
    | .error e => .error e
    | .ok cs =>
      match compileRawCatPats gc rest with
      | .error e => .error e
      | .ok cs2 => .ok (cs ++ cs2)

/-- Merge one matching category's buttons, compiling each button's
matchers (lines 86–100). -/
def mergeButtonsE (gc : List (String × List CPat)) :
    List (String × List RawCatPat) → List (String × List CPat) →
      Except Unit (List (String × List CPat))
  | [], acc => .ok acc
  | (std, pats) :: rest, acc =>
    match compileRawCatPats gc pats with
    | .error e => .error e
    | .ok cs => mergeButtonsE gc rest (extendAt acc std cs)

/-- Alternatives loop over a raw category key. -/
def applyAlternativesE (gc : List (String × List CPat)) (path : String)
    (buttons : List (String × List RawCatPat)) :
    List String → List (String × List CPat) → Except Unit (List (String × List CPat))
  | [], acc => .ok acc
  | alt :: rest, acc =>
    match (if categoryMatches (strTrim alt) path then mergeButtonsE gc buttons acc
           else .ok acc) with
    | .error e => .error e
    | .ok acc' => applyAlternativesE gc path buttons rest acc'

/-- Categories loop over the raw rule set. -/
def buildCatsE (gc : List (String × List CPat)) (path : String) :
    List (String × List (String × List RawCatPat)) → List (String × List CPat) →
      Except Unit (List (String × List CPat))
  | [], acc => .ok acc
  | (catKey, buttons) :: rest, acc =>
    match applyAlternativesE gc path buttons (splitComma catKey) acc with
    | .error e => .error e
    | .ok acc' => buildCatsE gc path rest acc'

/-- `normalize_button_names` with per-invocation rule compilation: the
groups compile first (lines 57–67), then the categories (lines 69–100),
then the rename loop runs; a `re.error` raised anywhere propagates. -/
def normalize_button_namesE (sigs : List IREntry) (raw : RawMapping) (file_path : String) :
    Except Unit (List IREntry × Nat) :=
  match compileGroupsE raw.groups with
  | .error e => .error e
  | .ok gc =>
    match buildCatsE gc (replaceBS file_path) raw.categories [] with
    | .error e => .error e
    | .ok table =>
      .ok (sigs.map (fun e => (normalizeEntry table e).1),
        sigs.countP (fun e => (normalizeEntry table e).2))

/-- `clean_and_deduplicate` with per-invocation rule compilation. -/
def clean_and_deduplicateE (original decoded : List String) (normalize : Bool)
    (raw : Option RawMapping) (file_path : String) :
    Except Unit (List String × Nat × Nat × Nat) :=
  let sigs := all_signals original decoded
  match normalize, raw with
  | true, some rm =>
    match normalize_button_namesE sigs rm file_path with
    | .error e => .error e
    | .ok (sigs', renamed) =>
      let dd := dedupSignals sigs'
      let rb := (dd.1.map (·.2)).foldl rebuildStep (extract_initial original, 0)
      .ok (collapseHashes (stripTrailing rb.1) false, dd.2, renamed, rb.2)
  | _, _ =>
    let dd := dedupSignals sigs
    let rb := (dd.1.map (·.2)).foldl rebuildStep (extract_initial original, 0)
    .ok (collapseHashes (stripTrailing rb.1) false, dd.2, 0, rb.2)

/-- The per-file metrics `compare_files` assembles (the similarity ratio
and the `difflib` delta depend on `difflib.SequenceMatcher`/`Differ` and
are outside this model). -/
structure ResultModel where
  cleaned : List String
  duplicates_removed : Nat
  buttons_renamed : Nat
  comments_readded : Nat
  lostComments : Nat
deriving DecidableEq, Repr

/-- `compare_files` (lines 272–318): read both files, clean and
deduplicate, and return the metrics; a raised `re.error` (or a failed
read) yields `None` through the function's `except` handler.  The write of
the cleaned content is modelled as succeeding. -/
def compare_files_model (normalize : Bool) (raw : Option RawMapping) (path : String)
    (origF decF : SourceFile) : Option ResultModel :=
  match read_file origF, read_file decF with
  | some o, some d =>
    match clean_and_deduplicateE o d normalize raw path with
    | .error _ => none
    | .ok (cleaned, dups, ren, readd) =>
      some { cleaned := cleaned, duplicates_removed := dups, buttons_renamed := ren,
             comments_readded := readd, lostComments := lost_comments o cleaned }
  | _, _ => none

/-- The per-file loop of `analyze_directories` (lines 341–397) over an
in-memory batch, counting `(processed_files, reads attempted, writes
attempted)`: both `read_file` calls run before any processing of a file,
the write runs only when cleaning succeeded, and a file whose comparison
returns `None` leaves the counters unchanged while the batch continues. -/
def analyze_model (normalize : Bool) (raw : Option RawMapping) :
    List (String × SourceFile × SourceFile) → Nat × Nat × Nat → Nat × Nat × Nat
  | [], acc => acc
  | (path, origF, decF) :: rest, acc =>
    let reads := acc.2.1 + 2
    match compare_files_model normalize raw path origF decF with
    | some _ => analyze_model normalize raw rest (acc.1 + 1, reads, acc.2.2 + 1)
    | none => analyze_model normalize raw rest (acc.1, reads, acc.2.2)

/-! ## The hardcoded rule set (`load_mapping`, lines 409–500)

The mapping is carried verbatim, with every `/.../` matcher string
pre-classified as a regex whose compiled form is produced by the ambient
`re`-engine abstraction `compile` applied to the slash-delimited pattern
text. -/

/-- `load_mapping()`: the JSON rule set, parameterized by the regex engine
`compile` interpreting each pattern text. -/
def load_mapping (compile : String → RePattern) : Mapping :=
  { groups :=
      [ ("power-toggle",
          [ .reg (compile "^((power|pwr)[_\\s]*)?(toggle)?$"),
            .reg (compile "^((power|pwr)[_\\/\\s]*)?((on[_\\/\\s]*off)|(off[_\\/\\s]*on)|toggle)$"),
            .reg (compile "^(turn[_\\s]*)?((on[_\\/\\s]*off)|(off[_\\/\\s]*on))$") ]),
        ("power-off",
          [ .reg (compile "^((power|pwr)[_\\s]*)?off$"),
            .reg (compile "^(turn[_\\s]*)?(off)$") ]),
        ("power-on",
          [ .reg (compile "^((power|pwr)[_\\s]*)?on$"),
            .reg (compile "^(turn[_\\s]*)?(on)$") ]),
        ("vol_up", [ .reg (compile "^vol(ume)?[_\\s]*(up|[\\^+])$") ]),
        ("vol_dn", [ .reg (compile "^vol(ume)?[_\\s]*(d(o?w)?n|[v\\-])$") ]),
        ("ch_next", [ .reg (compile "^ch(an(nel)?)?[_\\s]*(up|[\\^+])$") ]),
        ("ch_prev", [ .reg (compile "^ch(an(nel)?)?[_\\s]*(d(o?w)?n|[\\v-])$") ]),
        ("mute", [ .lit "mute", .lit "mte", .reg (compile "^mute.*$") ]) ],
    categories :=
      [ ("TVs/*",
          [ ("Power", [.groupRef "power-toggle"]),
            ("Off", [.groupRef "power-off"]),
            ("Power_on", [.groupRef "power-on"]),
            ("Vol_up", [.groupRef "vol_up"]),
            ("Vol_dn", [.groupRef "vol_dn"]),
            ("Ch_next", [.groupRef "ch_next"]),
            ("Ch_prev", [.groupRef "ch_prev"]),
            ("Mute", [.groupRef "mute"]) ]),
        ("ACs/*", [ ("Off", [.groupRef "power-off"]) ]),
        ("Audio_Receivers/*,SoundBars/*,Speakers/*",
          [ ("Power", [.groupRef "power-toggle"]),
            ("Off", [.groupRef "power-off"]),
            ("Power_on", [.groupRef "power-on"]),
            ("Vol_up", [.groupRef "vol_up"]),
            ("Vol_dn", [.groupRef "vol_dn"]),
            ("Mute", [.groupRef "mute"]) ]) ] }

/-! ## Concrete data for the spec's end-to-end example -/

/-- The example's original file. -/
def origEx : List String :=
  ["Filetype: IR signals file", "Version: 1", "#", "name: Power", "type: raw",
   "data: 1 2 3", "#"]

/-- The example's decoded file. -/
def decEx : List String :=
  ["name: Power", "type: parsed", "protocol: NEC", "address: 00", "command: 01"]

/-- The rebuilt output the program produces for the example (the trailing
`#` of the input is stripped by the trailing cleanup). -/
def rebuiltEx : List String :=
  ["Filetype: IR signals file", "Version: 1", "#", "name: Power", "type: parsed",
   "protocol: NEC", "address: 00", "command: 01"]

/-- The rebuilt sequence the spec's example claims, with a trailing `#`. -/
def rebuiltClaimed : List String := rebuiltEx ++ ["#"]

/-! ## Lemmas about the string primitives -/

theorem dropTrailWS_idem : ∀ cs, dropTrailWS (dropTrailWS cs) = dropTrailWS cs := by
  intro cs
  induction cs with
  | nil => rfl
  | cons c cs ih =>
    by_cases h : (dropTrailWS cs).isEmpty && isWS c
    · simp [dropTrailWS, h]
    · simp only [dropTrailWS, h, if_false, ih]

theorem trimChars_cons_of_not_ws {c : Char} {cs : List Char} (h : isWS c = false) :
    trimChars (c :: cs) = c :: dropTrailWS cs := by
  simp [trimChars, List.dropWhile_cons, h, dropTrailWS]

theorem dropWhile_ws_head : ∀ {cs : List Char} {c : Char} {cs' : List Char},
    cs.dropWhile isWS = c :: cs' → isWS c = false := by
  intro cs
  induction cs with
  | nil => intro c cs' h; simp at h
  | cons a l ih =>
    intro c cs' h
    rw [List.dropWhile_cons] at h
    by_cases ha : isWS a
    · simp [ha] at h; exact ih h
    · simp [ha] at h
      rw [← h.1]; simpa using ha

theorem dropTrailWS_head : ∀ {cs : List Char} {c : Char} {cs' : List Char},
    dropTrailWS cs = c :: cs' → ∃ t, cs = c :: t := by
  intro cs c cs' h
  cases cs with
  | nil => simp [dropTrailWS] at h
  | cons a t =>
    simp only [dropTrailWS] at h
    split at h
    · simp at h
    · exact ⟨t, by rw [(List.cons.injEq .. ).mp h |>.1]⟩

theorem trimChars_idem : ∀ cs, trimChars (trimChars cs) = trimChars cs := by
  intro cs
  rcases h : trimChars cs with _ | ⟨c, l⟩
  · rfl
  · have hd : (cs.dropWhile isWS).dropWhile isWS = cs.dropWhile isWS := by
      simp [List.dropWhile_idempotent]
    have hcw : isWS c = false := by
      have h2 : dropTrailWS (cs.dropWhile isWS) = c :: l := h
      obtain ⟨t, ht⟩ := dropTrailWS_head h2
      exact dropWhile_ws_head ht
    have hidem : dropTrailWS (c :: l) = c :: l := by
      have := dropTrailWS_idem (cs.dropWhile isWS)
      rw [show dropTrailWS (cs.dropWhile isWS) = c :: l from h] at this
      exact this
    have hl : dropTrailWS l = l := by
      simp only [dropTrailWS] at hidem
      split at hidem
      · simp at hidem
      · exact ((List.cons.injEq .. ).mp hidem).2
    rw [trimChars_cons_of_not_ws hcw, hl]

theorem strTrim_idem (s : String) : strTrim (strTrim s) = strTrim s := by
  simp [strTrim, trimChars_idem]

theorem strTrim_empty : strTrim "" = "" := rfl

theorem parseNameLine_trim_ne_hash {l nm : String} (h : parseNameLine l = some nm) :
    strTrim l ≠ "#" := by
  intro he
  rw [parseNameLine, he] at h
  simp [parseNameTail, dropPrefixCI] at h

theorem not_hash_of_startsWith_false {s : String} (h : strStartsWith s "#" = false) :
    s ≠ "#" := by
  intro he; rw [he] at h; simp [strStartsWith] at h

theorem strTrim_name_prefix_ne_hash (x : String) : strTrim ("name: " ++ x) ≠ "#" := by
  intro h
  have hdata : ("name: " ++ x).data = 'n' :: ("ame: ".data ++ x.data) := by
    simp [String.data_append]
  have : trimChars (("name: " ++ x).data) = ("#" : String).data := congrArg String.data h
  rw [hdata, trimChars_cons_of_not_ws (by decide)] at this
  simp at this

/-! ## The parser invariants -/

/-- Well-formedness of a parsed record's name: non-empty and stable under
stripping. -/
def nameWF (e : IREntry) : Prop := e.name ≠ "" ∧ strTrim e.name = e.name

/-- Well-formedness of a parsed record's signal block: non-empty, with no
line stripping to a bare `#`. -/
def sigWF (e : IREntry) : Prop := e.signal ≠ [] ∧ ∀ l ∈ e.signal, strTrim l ≠ "#"

theorem mkEntry_wf {st : ScanState} {src : Source} (hn : strTrim st.name = st.name)
    (hs : ∀ l ∈ st.sig, strTrim l ≠ "#") (h1 : st.sig ≠ []) (h2 : st.name ≠ "") :
    nameWF (mkEntry st src) ∧ sigWF (mkEntry st src) ∧ (mkEntry st src).source = src := by
  refine ⟨⟨?_, ?_⟩, ⟨h1, hs⟩, rfl⟩
  · show strTrim st.name ≠ ""
    rw [hn]; exact h2
  · show strTrim (strTrim st.name) = strTrim st.name
    exact strTrim_idem _

theorem scanLines_mem : ∀ (lines : List String) (src : Source) (st : ScanState),
    strTrim st.name = st.name → (∀ l ∈ st.sig, strTrim l ≠ "#") →
    ∀ e ∈ scanLines src st lines, nameWF e ∧ sigWF e ∧ e.source = src := by
  intro lines
  induction lines with
  | nil =>
    intro src st hn hs e he
    simp only [scanLines] at he
    split at he
    · rename_i hcond
      simp at hcond
      simp only [List.mem_singleton] at he
      subst he
      exact mkEntry_wf hn hs hcond.1 hcond.2
    · simp at he
  | cons line rest ih =>
    intro src st hn hs e he
    rcases hpn : parseNameLine (rstripNewlines line) with _ | nm
    all_goals simp only [scanLines, hpn] at he
    · -- not a record start
      split at he
      · -- comment line
        split at he
        · rename_i hcond
          simp at hcond
          rcases List.mem_cons.mp he with rfl | he2
          · exact mkEntry_wf hn hs hcond.1 hcond.2
          · exact ih src
              { sig := [], comments := st.comments ++ [rstripNewlines line], name := "" }
              rfl (by intro l hl; simp at hl) e he2
        · exact ih src
            { sig := st.sig, comments := st.comments ++ [rstripNewlines line], name := st.name }
            hn hs e he
      · split at he
        · -- blank line
          exact ih src st hn hs e he
        · -- field line
          rename_i hcom _
          refine ih src
            { sig := st.sig ++ [rstripNewlines line], comments := st.comments, name := st.name }
            hn ?_ e he
          intro l hl
          rcases List.mem_append.mp hl with h1 | h2
          · exact hs l h1
          · simp only [List.mem_singleton] at h2
            subst h2
            exact not_hash_of_startsWith_false (by simpa using hcom)
    · -- record start
      split at he
      · rename_i hcond
        simp at hcond
        rcases List.mem_cons.mp he with rfl | he2
        · exact mkEntry_wf hn hs hcond.1 hcond.2
        · refine ih src _ (strTrim_idem nm) ?_ e he2
          intro l hl
          simp only [List.mem_singleton] at hl
          subst hl
          exact parseNameLine_trim_ne_hash hpn
      · refine ih src _ (strTrim_idem nm) ?_ e he
        intro l hl
        rcases List.mem_append.mp hl with h1 | h2
        · exact hs l h1
        · simp only [List.mem_singleton] at h2
          subst h2
          exact parseNameLine_trim_ne_hash hpn

theorem processSignals_mem {src : Source} {content : List String} {e : IREntry}
    (he : e ∈ processSignals src content) : nameWF e ∧ sigWF e ∧ e.source = src :=
  scanLines_mem _ src _ rfl (by intro l hl; simp at hl) e he

theorem all_signals_mem {original decoded : List String} {e : IREntry}
    (he : e ∈ all_signals original decoded) : nameWF e ∧ sigWF e := by
  rcases List.mem_append.mp he with h | h
  · exact ⟨(processSignals_mem h).1, (processSignals_mem h).2.1⟩
  · exact ⟨(processSignals_mem h).1, (processSignals_mem h).2.1⟩

/-! ## Lemmas about the name normalizer -/

theorem chooseNewName_range : ∀ (table : List (String × List CPat)) (orig : String),
    chooseNewName table orig = orig ∨ chooseNewName table orig ∈ table.map (·.1) := by
  intro table orig
  induction table with
  | nil => exact Or.inl rfl
  | cons pr rest ih =>
    rcases pr with ⟨std, pats⟩
    simp only [chooseNewName]
    split
    · exact Or.inr (by simp)
    · rcases ih with h | h
      · exact Or.inl h
      · exact Or.inr (by simp [h])

theorem chooseNewName_no_match {table : List (String × List CPat)} {orig : String}
    (h : table.all (fun pr => pr.2.all (fun p => !patMatches orig p)) = true) :
    chooseNewName table orig = orig := by
  induction table with
  | nil => rfl
  | cons pr rest ih =>
    rcases pr with ⟨std, pats⟩
    simp only [List.all_cons, Bool.and_eq_true] at h
    simp only [chooseNewName]
    rw [if_neg]
    · exact ih h.2
    · simp only [Bool.and_eq_true, decide_eq_true_eq, not_and]
      intro hany
      rcases List.any_eq_true.mp hany with ⟨p, hp, hm⟩
      have := List.all_eq_true.mp h.1 p hp
      simp [hm] at this

theorem normalizeEntry_sigWF {table : List (String × List CPat)} {e : IREntry}
    (h : sigWF e) : sigWF (normalizeEntry table e).1 := by
  rcases h with ⟨h1, h2⟩
  rcases hsig : e.signal with _ | ⟨a, t⟩
  · exact absurd hsig h1
  · constructor
    · simp [normalizeEntry, setHead, hsig]
    · intro l hl
      simp only [normalizeEntry, hsig, setHead, List.mem_cons] at hl
      rcases hl with rfl | hl
      · exact strTrim_name_prefix_ne_hash _
      · exact h2 l (by simp [hsig, hl])

theorem normalizeEntry_nameWF {table : List (String × List CPat)} {e : IREntry}
    (hk : ∀ k ∈ table.map (·.1), strTrim k ≠ "") (h : nameWF e) :
    nameWF (normalizeEntry table e).1 := by
  rcases h with ⟨h1, h2⟩
  have hname : (normalizeEntry table e).1.name = strTrim (chooseNewName table (strTrim e.name)) :=
    rfl
  rcases chooseNewName_range table (strTrim e.name) with hc | hc
  · constructor
    · rw [hname, hc, strTrim_idem, h2]; exact h1
    · rw [hname, hc]; simp [strTrim_idem]
  · constructor
    · rw [hname]; exact fun hcon => hk _ hc hcon
    · rw [hname, strTrim_idem]

theorem extendAt_keys {acc : List (String × List CPat)} {k : String} {v : List CPat} :
    ∀ x ∈ (extendAt acc k v).map (·.1), x ∈ acc.map (·.1) ∨ x = k := by
  intro x hx
  unfold extendAt at hx
  split at hx
  · rw [List.map_map] at hx
    left
    have : ((fun p : String × List CPat => p.1) ∘
        fun p => if p.1 = k then (p.1, p.2 ++ v) else p) = (fun p => p.1) := by
      funext p
      rcases p with ⟨a, b⟩
      by_cases hp : a = k <;> simp [hp]
    rwa [this] at hx
  · rw [List.map_append] at hx
    rcases List.mem_append.mp hx with h | h
    · exact Or.inl h
    · simp at h
      exact Or.inr h

theorem mergeButtons_keys {gc : List (String × List CPat)} :
    ∀ (btns : List (String × List CatPat)) (acc : List (String × List CPat)),
    ∀ x ∈ (mergeButtons gc btns acc).map (·.1), x ∈ acc.map (·.1) ∨ x ∈ btns.map (·.1) := by
  intro btns
  induction btns with
  | nil => intro acc x hx; exact Or.inl hx
  | cons pr rest ih =>
    rcases pr with ⟨std, pats⟩
    intro acc x hx
    rcases ih _ x hx with h | h
    · rcases extendAt_keys x h with h2 | h2
      · exact Or.inl h2
      · exact Or.inr (by simp [h2])
    · exact Or.inr (by simp [h])

theorem applyAlternatives_keys {gc : List (String × List CPat)} {path : String}
    {buttons : List (String × List CatPat)} :
    ∀ (alts : List String) (acc : List (String × List CPat)),
    ∀ x ∈ (applyAlternatives gc path buttons alts acc).map (·.1),
      x ∈ acc.map (·.1) ∨ x ∈ buttons.map (·.1) := by
  intro alts
  induction alts with
  | nil => intro acc x hx; exact Or.inl hx
  | cons alt rest ih =>
    intro acc x hx
    rcases ih _ x hx with h | h
    · split at h
      · exact mergeButtons_keys buttons acc x h
      · exact Or.inl h
    · exact Or.inr h

theorem buildCats_keys {gc : List (String × List CPat)} {path : String} :
    ∀ (cats : List (String × List (String × List CatPat))) (acc : List (String × List CPat)),
    ∀ x ∈ (buildCats gc path cats acc).map (·.1),
      x ∈ acc.map (·.1) ∨ x ∈ cats.flatMap (fun c => c.2.map (·.1)) := by
  intro cats
  induction cats with
  | nil => intro acc x hx; exact Or.inl hx
  | cons c rest ih =>
    rcases c with ⟨ck, btns⟩
    intro acc x hx
    rcases ih _ x hx with h | h
    · rcases applyAlternatives_keys _ _ x h with h2 | h2
      · exact Or.inl h2
      · exact Or.inr (by simp only [List.flatMap_cons]; exact List.mem_append.mpr (Or.inl h2))
    · exact Or.inr (by simp only [List.flatMap_cons]; exact List.mem_append.mpr (Or.inr h))

theorem load_mapping_keys (compile : String → RePattern) (p : String) :
    ∀ k ∈ (buildCategoryMappings (load_mapping compile) p).map (·.1), strTrim k ≠ "" := by
  intro k hk
  rcases buildCats_keys _ _ k hk with h | h
  · simp at h
  · have hflat : (load_mapping compile).categories.flatMap (fun c => c.2.map (·.1)) =
      ["Power", "Off", "Power_on", "Vol_up", "Vol_dn", "Ch_next", "Ch_prev", "Mute", "Off",
        "Power", "Off", "Power_on", "Vol_up", "Vol_dn", "Mute"] := rfl
    rw [hflat] at h
    have hall : ∀ x ∈ (["Power", "Off", "Power_on", "Vol_up", "Vol_dn", "Ch_next", "Ch_prev",
        "Mute", "Off", "Power", "Off", "Power_on", "Vol_up", "Vol_dn", "Mute"] : List String),
        strTrim x ≠ "" := by decide
    exact hall k h

/-! ## Lemmas about the merge/dedup engine -/

theorem lookupList_append_single {m : List (String × IREntry)} {n : String} {e : IREntry}
    {k : String} :
    lookupList (m ++ [(n, e)]) k =
      (match lookupList m k with
        | some v => some v
        | none => if n = k then some e else none) := by
  induction m with
  | nil => simp [lookupList]
  | cons p rest ih =>
    rcases p with ⟨k1, v1⟩
    by_cases h : k1 = k
    · simp [lookupList, h]
    · simp only [List.cons_append, lookupList, if_neg h]
      exact ih

theorem lookupList_cons {α : Type} {a : String × α} {l : List (String × α)} {k : String} :
    lookupList (a :: l) k = if a.1 = k then some a.2 else lookupList l k := by
  rcases a with ⟨x, y⟩; rfl

theorem updateSig_cons {k1 : String} {v1 : IREntry} {rest : List (String × IREntry)}
    {n : String} {e : IREntry} :
    updateSig ((k1, v1) :: rest) n e =
      (if k1 = n then (k1, e) else (k1, v1)) :: updateSig rest n e := rfl

theorem lookupList_update {m : List (String × IREntry)} {n : String} {e : IREntry}
    {k : String} :
    lookupList (updateSig m n e) k =
      if n = k then (lookupList m k).map (fun _ => e) else lookupList m k := by
  induction m with
  | nil => by_cases h : n = k <;> simp [lookupList, updateSig, h]
  | cons p rest ih =>
    rcases p with ⟨k1, v1⟩
    rw [updateSig_cons]
    by_cases h1 : k1 = n <;> by_cases h2 : k1 = k
    · subst h1; subst h2
      rw [if_pos rfl]
      simp [lookupList_cons]
    · subst h1
      rw [if_pos rfl]
      simp [lookupList_cons, h2, ih]
    · subst h2
      have h3 : ¬ n = k1 := fun hc => h1 hc.symm
      rw [if_neg h1]
      simp [lookupList_cons, h3]
    · rw [if_neg h1]
      simp [lookupList_cons, h2, ih]

theorem updateSig_keys {m : List (String × IREntry)} {n : String} {e : IREntry} :
    (updateSig m n e).map (·.1) = m.map (·.1) := by
  unfold updateSig
  rw [List.map_map]
  congr 1
  funext p
  rcases p with ⟨a, b⟩
  by_cases h : a = n <;> simp [h]

theorem updateSig_length {m : List (String × IREntry)} {n : String} {e : IREntry} :
    (updateSig m n e).length = m.length := by
  simp [updateSig]

theorem lookupList_none_iff {m : List (String × IREntry)} {k : String} :
    lookupList m k = none ↔ k ∉ m.map (·.1) := by
  induction m with
  | nil => simp [lookupList]
  | cons p rest ih =>
    rcases p with ⟨k1, v1⟩
    rw [lookupList_cons]
    by_cases h : k1 = k
    · simp [h]
    · rw [if_neg h, ih]
      simp only [List.map_cons, List.mem_cons]
      constructor
      · intro hk hc
        rcases hc with hc | hc
        · exact h hc.symm
        · exact hk hc
      · intro hk hc
        exact hk (Or.inr hc)

theorem dedupFold_nodup : ∀ (es : List IREntry) (m : List (String × IREntry)) (d : Nat),
    (m.map (·.1)).Nodup → ((es.foldl dedupStep (m, d)).1.map (·.1)).Nodup := by
  intro es
  induction es with
  | nil => intro m d h; exact h
  | cons e rest ih =>
    intro m d h
    rw [List.foldl_cons]
    rcases hl : lookupList m e.name with _ | ex
    · have hstep : dedupStep (m, d) e = (m ++ [(e.name, e)], d) := by
        simp [dedupStep, hl]
      rw [hstep]
      refine ih _ _ ?_
      rw [List.map_append]
      simp only [List.map_cons, List.map_nil]
      refine List.Nodup.append h (by simp) ?_
      intro a ha hb
      simp only [List.mem_singleton] at hb
      subst hb
      exact (lookupList_none_iff.mp hl) ha
    · have hstep : dedupStep (m, d) e =
        ((if ex.source = .original ∧ e.source = .decoded then updateSig m e.name e else m),
          d + 1) := by simp [dedupStep, hl]
      rw [hstep]
      refine ih _ _ ?_
      split
      · rwa [updateSig_keys]
      · exact h

theorem dedupFold_values (P : IREntry → Prop) :
    ∀ (es : List IREntry) (m : List (String × IREntry)) (d : Nat),
    (∀ e ∈ es, P e) → (∀ p ∈ m, P p.2 ∧ p.2.name = p.1) →
    ∀ p ∈ (es.foldl dedupStep (m, d)).1, P p.2 ∧ p.2.name = p.1 := by
  intro es
  induction es with
  | nil => intro m d _ hm p hp; exact hm p hp
  | cons e rest ih =>
    intro m d hes hm p hp
    rw [List.foldl_cons] at hp
    have hPe : P e := hes e (by simp)
    have hes' : ∀ x ∈ rest, P x := fun x hx => hes x (by simp [hx])
    rcases hl : lookupList m e.name with _ | ex
    · have hstep : dedupStep (m, d) e = (m ++ [(e.name, e)], d) := by
        simp [dedupStep, hl]
      rw [hstep] at hp
      refine ih _ _ hes' ?_ p hp
      intro q hq
      rcases List.mem_append.mp hq with h | h
      · exact hm q h
      · simp only [List.mem_singleton] at h
        subst h
        exact ⟨hPe, rfl⟩
    · have hstep : dedupStep (m, d) e =
        ((if ex.source = .original ∧ e.source = .decoded then updateSig m e.name e else m),
          d + 1) := by simp [dedupStep, hl]
      rw [hstep] at hp
      refine ih _ _ hes' ?_ p hp
      intro q hq
      split at hq
      · unfold updateSig at hq
        rcases List.mem_map.mp hq with ⟨r, hr, hrq⟩
        by_cases hk : r.1 = e.name
        · rw [if_pos hk] at hrq
          subst hrq
          exact ⟨hPe, by simp [hk]⟩
        · rw [if_neg hk] at hrq
          subst hrq
          exact hm r hr
      · exact hm q hq

theorem dedupFold_count : ∀ (es : List IREntry) (m : List (String × IREntry)) (d : Nat),
    (es.foldl dedupStep (m, d)).2 + (es.foldl dedupStep (m, d)).1.length =
      d + m.length + es.length := by
  intro es
  induction es with
  | nil => intro m d; simp
  | cons e rest ih =>
    intro m d
    rw [List.foldl_cons]
    rcases hl : lookupList m e.name with _ | ex
    · have hstep : dedupStep (m, d) e = (m ++ [(e.name, e)], d) := by
        simp [dedupStep, hl]
      rw [hstep, ih]
      simp only [List.length_append, List.length_cons, List.length_nil]
      omega
    · have hstep : dedupStep (m, d) e =
        ((if ex.source = .original ∧ e.source = .decoded then updateSig m e.name e else m),
          d + 1) := by simp [dedupStep, hl]
      rw [hstep, ih]
      simp only [List.length_cons]
      split
      · rw [updateSig_length]
        omega
      · omega

/-- The final winner for a key after folding a batch of entries into an
existing map: the first decoded entry with that name replaces an `original`
winner; a `decoded` winner is permanent; with no current winner, the first
decoded entry wins, else the first entry of that name. -/
theorem dedupFold_winner : ∀ (es : List IREntry) (m : List (String × IREntry)) (d : Nat)
    (k : String),
    lookupList (es.foldl dedupStep (m, d)).1 k =
      (match lookupList m k with
        | some w =>
          some (if w.source = .original then
            (es.find? (fun e => decide (e.name = k) && decide (e.source = Source.decoded))).getD w
          else w)
        | none =>
          match es.find? (fun e => decide (e.name = k) && decide (e.source = Source.decoded)) with
          | some e => some e
          | none => es.find? (fun e => decide (e.name = k))) := by
  intro es
  induction es with
  | nil =>
    intro m d k
    rcases hl : lookupList m k with _ | w
    · simp [hl]
    · simp only [List.foldl_nil, hl, List.find?_nil, Option.getD_none]
      split <;> rfl
  | cons e rest ih =>
    intro m d k
    rw [List.foldl_cons]
    by_cases hek : e.name = k
    · subst hek
      rcases hl : lookupList m e.name with _ | ex
      · -- new key: e is inserted
        have hstep : dedupStep (m, d) e = (m ++ [(e.name, e)], d) := by
          simp [dedupStep, hl]
        rw [hstep, ih, lookupList_append_single, hl, if_pos rfl]
        rcases hsrc : e.source with _ | _
        · -- e decoded: permanent winner
          have hfd : List.find? (fun x => decide (x.name = e.name) &&
              decide (x.source = Source.decoded)) (e :: rest) = some e := by
            simp [List.find?_cons, hsrc]
          rw [hfd]
          simp [hsrc]
        · -- e original: replaced by the first decoded among the rest, if any
          have hfd : List.find? (fun x => decide (x.name = e.name) &&
              decide (x.source = Source.decoded)) (e :: rest) =
              List.find? (fun x => decide (x.name = e.name) &&
                decide (x.source = Source.decoded)) rest := by
            simp [List.find?_cons, hsrc]
          have hfn : List.find? (fun x => decide (x.name = e.name)) (e :: rest) = some e := by
            simp [List.find?_cons]
          rw [hfd]
          rcases hf : List.find? (fun x => decide (x.name = e.name) &&
              decide (x.source = Source.decoded)) rest with _ | w2
          · simp [hsrc, hf, hfn]
          · simp [hsrc, hf]
      · -- existing key
        have hstep : dedupStep (m, d) e =
          ((if ex.source = .original ∧ e.source = .decoded then updateSig m e.name e else m),
            d + 1) := by simp [dedupStep, hl]
        rw [hstep, ih]
        by_cases hcond : ex.source = .original ∧ e.source = .decoded
        · rw [if_pos hcond, lookupList_update, if_pos rfl, hl]
          have hfd : List.find? (fun x => decide (x.name = e.name) &&
              decide (x.source = Source.decoded)) (e :: rest) = some e := by
            simp [List.find?_cons, hcond.2]
          rw [hfd]
          simp [hcond.1, hcond.2]
        · rw [if_neg hcond, hl]
          rcases hsrc : ex.source with _ | _
          · -- existing decoded: unchanged either way
            simp [hsrc]
          · -- existing original, so e is not decoded
            have hnd : e.source ≠ Source.decoded := fun hc => hcond ⟨hsrc, hc⟩
            have hfd : List.find? (fun x => decide (x.name = e.name) &&
                decide (x.source = Source.decoded)) (e :: rest) =
                List.find? (fun x => decide (x.name = e.name) &&
                  decide (x.source = Source.decoded)) rest := by
              simp [List.find?_cons, hnd]
            rw [hfd]
    · -- different key: the step does not affect k
      have hfd : List.find? (fun x => decide (x.name = k) &&
          decide (x.source = Source.decoded)) (e :: rest) =
          List.find? (fun x => decide (x.name = k) &&
            decide (x.source = Source.decoded)) rest := by
        simp [List.find?_cons, hek]
      have hfn : List.find? (fun x => decide (x.name = k)) (e :: rest) =
          List.find? (fun x => decide (x.name = k)) rest := by
        simp [List.find?_cons, hek]
      rcases hl : lookupList m e.name with _ | ex
      · have hstep : dedupStep (m, d) e = (m ++ [(e.name, e)], d) := by
          simp [dedupStep, hl]
        rw [hstep, ih, lookupList_append_single, hfd, hfn, if_neg hek]
        rcases hlk : lookupList m k with _ | w <;> simp [hlk]
      · have hstep : dedupStep (m, d) e =
          ((if ex.source = .original ∧ e.source = .decoded then updateSig m e.name e else m),
            d + 1) := by simp [dedupStep, hl]
        by_cases hcond : ex.source = Source.original ∧ e.source = Source.decoded
        · rw [hstep, if_pos hcond, ih, lookupList_update, if_neg hek, hfd, hfn]
        · rw [hstep, if_neg hcond, ih, hfd, hfn]

/-! ## Lemmas about the content rebuilder -/

theorem endsWithHash_append_hash (l : List String) : endsWithHash (l ++ ["#"]) = true := by
  unfold endsWithHash
  rw [List.getLast?_append_cons]
  decide

theorem mem_of_getLast?_eq {l : List String} {a : String} (h : l.getLast? = some a) :
    a ∈ l := by
  induction l with
  | nil => simp at h
  | cons x xs ih =>
    rcases xs with _ | ⟨y, ys⟩
    · simp only [List.getLast?_singleton, Option.some.injEq] at h
      simp [h]
    · rw [List.getLast?_cons_cons] at h
      exact List.mem_cons_of_mem x (ih h)

theorem rebuildStep_of_endsHash {acc : List String} {r : Nat} {e : IREntry}
    (hsig : sigWF e) (hh : endsWithHash acc = true) :
    rebuildStep (acc, r) e = (acc ++ e.signal ++ ["#"], r) := by
  rcases hsig with ⟨h1, h2⟩
  have hla : ∃ la, e.signal.getLast? = some la := by
    rcases hgl : e.signal.getLast? with _ | la
    · exact absurd (List.getLast?_eq_none_iff.mp hgl) h1
    · exact ⟨la, rfl⟩
  rcases hla with ⟨la, hla⟩
  have hmem : la ∈ e.signal := mem_of_getLast?_eq hla
  have hends : endsWithHash (acc ++ e.signal) = false := by
    unfold endsWithHash
    rw [List.getLast?_append_of_ne_nil _ h1, hla]
    simpa using h2 la hmem
  have hne : (acc ++ e.signal) ≠ [] := by
    intro hc
    exact h1 (List.append_eq_nil.mp hc).2
  unfold rebuildStep
  rw [hh]
  simp [hends, hne]

theorem rebuild_fold : ∀ (entries : List IREntry), (∀ e ∈ entries, sigWF e) →
    ∀ (acc : List String) (r : Nat), acc ≠ [] → endsWithHash acc = true →
    (entries.foldl rebuildStep (acc, r)).2 = r ∧
      (entries.foldl rebuildStep (acc, r)).1 ≠ [] ∧
      endsWithHash (entries.foldl rebuildStep (acc, r)).1 = true := by
  intro entries
  induction entries with
  | nil => intro _ acc r h1 h2; exact ⟨rfl, h1, h2⟩
  | cons e rest ih =>
    intro hwf acc r h1 h2
    rw [List.foldl_cons, rebuildStep_of_endsHash (hwf e (by simp)) h2]
    refine ih (fun x hx => hwf x (by simp [hx])) _ r ?_ ?_
    · simp
    · exact endsWithHash_append_hash _

theorem endsWithHash_of_ne_nil {l : List String}
    (h : (if !l.isEmpty && !endsWithHash l then l ++ ["#"] else l) ≠ []) :
    endsWithHash (if !l.isEmpty && !endsWithHash l then l ++ ["#"] else l) = true := by
  by_cases hc : (!l.isEmpty && !endsWithHash l) = true
  · rw [if_pos hc]
    exact endsWithHash_append_hash l
  · rw [if_neg hc] at h ⊢
    simp only [Bool.and_eq_true, Bool.not_eq_true', not_and_or] at hc
    rcases hc with hc | hc
    · simp only [Bool.not_eq_false] at hc
      exact absurd (List.isEmpty_iff.mp hc) h
    · simpa using hc

theorem extract_initial_endsHash {original : List String} (h : extract_initial original ≠ []) :
    endsWithHash (extract_initial original) = true := by
  have hE : extract_initial original =
      (if !(dropWhileRight (fun l => strTrim l = "#") (original.takeWhile isInitialLine)).isEmpty
          && !endsWithHash
            (dropWhileRight (fun l => strTrim l = "#") (original.takeWhile isInitialLine)) then
        dropWhileRight (fun l => strTrim l = "#") (original.takeWhile isInitialLine) ++ ["#"]
      else dropWhileRight (fun l => strTrim l = "#") (original.takeWhile isInitialLine)) := rfl
  rw [hE] at h ⊢
  exact endsWithHash_of_ne_nil h

/-! ## Lemmas about the per-file rule-compilation failure model -/

theorem normalize_button_namesE_error {sigs : List IREntry} {raw : RawMapping} {path : String}
    (h : compileGroupsE raw.groups = .error ()) :
    normalize_button_namesE sigs raw path = .error () := by
  unfold normalize_button_namesE
  rw [h]

theorem clean_and_deduplicateE_error {original decoded : List String} {raw : RawMapping}
    {path : String} (h : compileGroupsE raw.groups = .error ()) :
    clean_and_deduplicateE original decoded true (some raw) path = .error () := by
  simp only [clean_and_deduplicateE]
  rw [@normalize_button_namesE_error (all_signals original decoded) raw path h]

theorem compare_files_model_error {raw : RawMapping} {path : String}
    {origF decF : SourceFile} (h : compileGroupsE raw.groups = .error ()) :
    compare_files_model true (some raw) path origF decF = none := by
  unfold compare_files_model
  rcases hro : read_file origF with _ | o
  · rfl
  · rcases hrd : read_file decF with _ | d
    · rfl
    · have hc := @clean_and_deduplicateE_error o d raw path h
      simp [hc]

theorem analyze_model_error {raw : RawMapping} (h : compileGroupsE raw.groups = .error ()) :
    ∀ (files : List (String × SourceFile × SourceFile)) (acc : Nat × Nat × Nat),
    analyze_model true (some raw) files acc = (acc.1, acc.2.1 + 2 * files.length, acc.2.2) := by
  intro files
  induction files with
  | nil => intro acc; simp [analyze_model]
  | cons f rest ih =>
    intro acc
    rcases f with ⟨path, origF, decF⟩
    show (match compare_files_model true (some raw) path origF decF with
      | some _ => analyze_model true (some raw) rest (acc.1 + 1, acc.2.1 + 2, acc.2.2 + 1)
      | none => analyze_model true (some raw) rest (acc.1, acc.2.1 + 2, acc.2.2)) = _
    rw [compare_files_model_error h]
    show analyze_model true (some raw) rest (acc.1, acc.2.1 + 2, acc.2.2) =
      (acc.1, acc.2.1 + 2 * ((path, origF, decF) :: rest).length, acc.2.2)
    rw [ih]
    show (acc.1, acc.2.1 + 2 + 2 * rest.length, acc.2.2) =
      (acc.1, acc.2.1 + 2 * (rest.length + 1), acc.2.2)
    rw [show acc.2.1 + 2 * (rest.length + 1) = acc.2.1 + 2 + 2 * rest.length by omega]

/-! ## Concrete data for the counterexamples and witnesses -/

/-- A record whose raw first line has non-canonical spacing/casing. -/
def e5 : IREntry :=
  { name := "Power", comments := [], signal := ["NAME:Power", "type: raw"],
    source := .decoded }

/-- A rule set whose only category table cannot match the name `Power`
(its single literal matcher is `pwr`). -/
def M0 : Mapping :=
  { groups := [], categories := [("TVs/*", [("Power_tg", [CatPat.lit "pwr"])])] }

/-- Models `re.compile("a", re.IGNORECASE)`: `re.match` anchors only at the
start of the string, so it succeeds whenever the tested name begins with
`a` or `A` — also when the match covers only a proper prefix. -/
def reA : RePattern := fun s => strStartsWith (strLower s) "a"

/-- Full-match semantics of the same pattern `a` (what `re.fullmatch`
would test): the whole name must equal `a` case-insensitively. -/
def reAFull (s : String) : Bool := strLower s = "a"

/-- A record named `ab`: the pattern `a` matches its proper prefix only. -/
def e6 : IREntry :=
  { name := "ab", comments := [], signal := ["name: ab"], source := .decoded }

/-- A rule set mapping the regex matcher `a` to the canonical name
`Alpha`. -/
def M1 : Mapping :=
  { groups := [], categories := [("TVs/*", [("Alpha", [CatPat.reg reA])]) ] }

/-- A rule set whose group regex fails to compile (models an invalid
regular expression raising `re.error` at `re.compile`). -/
def rawBad : RawMapping :=
  { groups := [("power-toggle", [RawGPat.reg (Except.error ())])],
    categories := [("TVs/*", [("Power", [RawCatPat.groupRef "power-toggle"])])] }

/-- A readable batch file with ordinary content. -/
def sfA : SourceFile :=
  { openOk := true, strictDecode := fun _ => none,
    replaceDecode := "Filetype: IR signals file\nVersion: 1\n#\nname: Power\ntype: raw\ndata: 1 2 3" }

/-- Models a file whose content is the single byte `0xFF`: the strict UTF-8
and UTF-16 decodes raise `UnicodeDecodeError`, the single-byte legacy
codecs cp1252 and iso-8859-1 decode it to `ÿ`, and the UTF-8 decode with
`errors='replace'` yields the replacement character U+FFFD. -/
def fXFF : SourceFile :=
  { openOk := true,
    strictDecode := fun enc =>
      if enc = "cp1252" || enc = "iso-8859-1" then some "ÿ" else none,
    replaceDecode := "�" }

/-- The decoded and original `Power` records of the end-to-end example. -/
def eDecPower : IREntry :=
  { name := "Power", comments := [],
    signal := ["name: Power", "type: parsed", "protocol: NEC", "address: 00", "command: 01"],
    source := .decoded }

/-- The original-source `Power` record of the end-to-end example. -/
def eOrigPower : IREntry :=
  { name := "Power", comments := [], signal := ["name: Power", "type: raw", "data: 1 2 3"],
    source := .original }

/-! ## The claims -/

/-- Claim C1, counterexample: feeding the engine's own rebuilt output (from
the spec's end-to-end example) back in as both the original and the decoded
input does NOT yield `duplicates_removed = 0`: every record is parsed once
per source pass and the original-pass copy is counted as a removed
duplicate, so the counter equals the number of records (1 here). -/
theorem C1_counterexample :
    (clean_and_deduplicate rebuiltEx rebuiltEx false none "").2.1 ≠ 0 := by decide

/-- Claim C1, amended: feeding the end-to-end example's rebuilt output back
in as both inputs (same settings, normalization off) yields a byte-identical
rebuilt line sequence, but `duplicates_removed = 1` — one per record, since
each record's original-pass copy is deduplicated against its decoded-pass
twin — so the counter is 0 only for record-less files. -/
theorem C1_theorem :
    clean_and_deduplicate rebuiltEx rebuiltEx false none "" = (rebuiltEx, 1, 0, 0) := by
  decide

/-- Claim C2, counterexample: on the spec's end-to-end example the rebuilt
sequence is NOT the claimed nine-line list ending in `#` — the trailing
separator is removed by the trailing-cleanup step (lines 253–255). -/
theorem C2_counterexample :
    (clean_and_deduplicate origEx decEx false none "").1 ≠ rebuiltClaimed := by decide

/-- Claim C2, amended: on the example input pair, `clean_and_deduplicate`
returns exactly the eight-line rebuilt sequence WITHOUT the trailing `#`
(which the trailing cleanup strips), with `duplicates_removed = 1`, and the
reporter computes `lost_comments = 0` for this pair. -/
theorem C2_theorem :
    clean_and_deduplicate origEx decEx false none "" = (rebuiltEx, 1, 0, 0) ∧
      lost_comments origEx rebuiltEx = 0 := by
  constructor <;> decide

/-- Claim C3: the merge/dedup step processes all decoded-source records
before all original-source records; a first record for a name is inserted
as the winner; every later record with the same name increments
`duplicates_removed` by exactly one and replaces the stored winner iff the
existing winner is `original` and the new record is `decoded` (equivalently:
the final winner for a name is the first decoded record of that name, else
the first record of that name); in particular the end-to-end example keeps
the parsed variant with `duplicates_removed = 1`. -/
theorem C3_theorem :
    (∀ original decoded : List String, ∃ ds os : List IREntry,
        all_signals original decoded = ds ++ os ∧
        (∀ e ∈ ds, e.source = Source.decoded) ∧ (∀ e ∈ os, e.source = Source.original)) ∧
    (∀ (m : List (String × IREntry)) (d : Nat) (e : IREntry),
        lookupList m e.name = none → dedupStep (m, d) e = (m ++ [(e.name, e)], d)) ∧
    (∀ (m : List (String × IREntry)) (d : Nat) (e ex : IREntry),
        lookupList m e.name = some ex →
        dedupStep (m, d) e =
          ((if ex.source = Source.original ∧ e.source = Source.decoded then
              updateSig m e.name e else m), d + 1)) ∧
    (∀ es : List IREntry, (dedupSignals es).2 + (dedupSignals es).1.length = es.length) ∧
    (∀ (es : List IREntry) (k : String),
        lookupList (dedupSignals es).1 k =
          (match es.find? (fun x => decide (x.name = k) && decide (x.source = Source.decoded))
            with
          | some e => some e
          | none => es.find? (fun x => decide (x.name = k)))) ∧
    ((clean_and_deduplicate origEx decEx false none "").1 = rebuiltEx ∧
      rebuiltEx.contains "type: parsed" = true ∧ rebuiltEx.contains "type: raw" = false ∧
      (clean_and_deduplicate origEx decEx false none "").2.1 = 1) := by
  refine ⟨?_, ?_, ?_, ?_, ?_, ?_⟩
  · intro original decoded
    exact ⟨processSignals .decoded (strip_decoded_headers decoded),
      processSignals .original (original.drop (extract_initial original).length), rfl,
      fun e he => (processSignals_mem he).2.2, fun e he => (processSignals_mem he).2.2⟩
  · intro m d e h
    simp [dedupStep, h]
  · intro m d e ex h
    simp [dedupStep, h]
  · intro es
    simpa using dedupFold_count es [] 0
  · intro es k
    simpa [lookupList] using dedupFold_winner es [] 0 k
  · refine ⟨by decide, by decide, by decide, by decide⟩

/-- Claim C3, witness: a later decoded record with the same name replaces
an original-source winner and counts one removed duplicate. -/
theorem C3_witness :
    dedupStep ([("Power", eOrigPower)], 0) eDecPower = ([("Power", eDecPower)], 1) := by
  have h := C3_theorem.2.2.1 [("Power", eOrigPower)] 0 eDecPower eOrigPower (by decide)
  rw [h]
  decide

/-- Claim C4: for every pair of input line sequences, with or without
normalization under the program's hardcoded rule set (any regex engine),
the surviving merge/dedup records have pairwise-distinct names and every
surviving record's name is non-empty. -/
theorem C4_theorem : ∀ (compile : String → RePattern) (original decoded : List String)
    (normalize : Bool) (file_path : String),
    ((surviving original decoded normalize (some (load_mapping compile)) file_path).map
      (fun p => p.2.name)).Nodup ∧
    ∀ p ∈ surviving original decoded normalize (some (load_mapping compile)) file_path,
      p.2.name ≠ "" := by
  intro compile original decoded normalize file_path
  have hname : ∀ e ∈ (norm_stage original decoded normalize
      (some (load_mapping compile)) file_path).1, nameWF e := by
    intro e he
    rcases normalize with _ | _
    · exact (all_signals_mem he).1
    · simp only [norm_stage, normalize_button_names, List.mem_map] at he
      rcases he with ⟨x, hx, rfl⟩
      exact normalizeEntry_nameWF (load_mapping_keys compile (replaceBS file_path))
        (all_signals_mem hx).1
  have hvals := dedupFold_values nameWF
    (norm_stage original decoded normalize (some (load_mapping compile)) file_path).1 [] 0
    hname (by intro p hp; simp at hp)
  have hnd := dedupFold_nodup
    (norm_stage original decoded normalize (some (load_mapping compile)) file_path).1 [] 0
    (by simp)
  have hmapeq : (surviving original decoded normalize (some (load_mapping compile))
        file_path).map (fun p => p.2.name) =
      (surviving original decoded normalize (some (load_mapping compile)) file_path).map
        (fun p => p.1) := by
    refine List.map_congr_left ?_
    intro p hp
    exact (hvals p hp).2
  constructor
  · rw [hmapeq]
    exact hnd
  · intro p hp
    exact (hvals p hp).1.1

/-- Claim C5, counterexample: a record whose name matches no rule of the
applying category is NOT left entirely unchanged — its first raw line
`NAME:Power` is rewritten to the canonical `name: Power` even though no
matcher matched (`buttons_renamed` stays 0). -/
theorem C5_counterexample :
    normalize_button_names [e5] M0 "TVs/x.ir" =
      ([{ name := "Power", comments := [], signal := ["name: Power", "type: raw"],
          source := Source.decoded }], 0) ∧
    (normalize_button_names [e5] M0 "TVs/x.ir").1 ≠ [e5] := by
  constructor <;> decide

/-- Claim C5, amended: when no matcher of any category applying to the
file's path matches a record's trimmed name, the Name Normalizer keeps the
record's name (re-stripped) and all raw field lines except the first, does
not count a rename, but unconditionally rewrites the first raw line to the
canonical `name: <name>` form. -/
theorem C5_theorem : ∀ (m : Mapping) (file_path : String) (sigs : List IREntry),
    (normalize_button_names sigs m file_path).1 =
      sigs.map (fun e => (normalizeEntry (buildCategoryMappings m (replaceBS file_path)) e).1) ∧
    ∀ e : IREntry,
      ((buildCategoryMappings m (replaceBS file_path)).all
        (fun pr => pr.2.all (fun q => !patMatches (strTrim e.name) q))) = true →
      normalizeEntry (buildCategoryMappings m (replaceBS file_path)) e =
        ({ e with
            name := strTrim e.name
            signal := setHead e.signal ("name: " ++ strTrim e.name) }, false) := by
  intro m file_path sigs
  constructor
  · rfl
  · intro e h
    have hcn := chooseNewName_no_match h
    simp [normalizeEntry, hcn, strTrim_idem]

/-- Claim C5, witness: the no-match record `e5` under the rule set `M0`. -/
theorem C5_witness :
    normalizeEntry (buildCategoryMappings M0 (replaceBS "TVs/x.ir")) e5 =
      ({ e5 with
          name := strTrim e5.name
          signal := setHead e5.signal ("name: " ++ strTrim e5.name) }, false) :=
  (C5_theorem M0 "TVs/x.ir" [e5]).2 e5 (by decide)

/-- Claim C6, counterexample: the regex matcher `a` (compiled with
`re.IGNORECASE`) matches the record name `ab` although it does not fully
match it — `re.match` accepts a match covering only a proper prefix — so
the record is renamed to `Alpha`, contradicting the claim's full-match
semantics. -/
theorem C6_counterexample :
    normalize_button_names [e6] M1 "TVs/x.ir" =
      ([{ name := "Alpha", comments := [], signal := ["name: Alpha"],
          source := Source.decoded }], 1) ∧
    reAFull "ab" = false := by
  constructor <;> decide

/-- Claim C6, amended: a Regex matcher matches iff the compiled pattern
matches at the START of the trimmed name (`re.match` semantics — a match of
a proper prefix counts); a Literal matcher matches iff the trimmed name
equals the whitespace-stripped lowercased literal case-insensitively; and
canonical names are tried in insertion order, the winner being the first
canonical name that has a matching matcher AND differs from the record's
trimmed name (a matching canonical equal to the current name does not stop
the scan). -/
theorem C6_theorem :
    (∀ (nm : String) (p : RePattern), patMatches nm (CPat.reg p) = p nm) ∧
    (∀ (nm s : String), patMatches nm (CPat.lit s) = decide (strLower nm = strTrim s)) ∧
    (∀ (table : List (String × List CPat)) (orig : String),
      chooseNewName table orig =
        (match table.find? (fun pr => pr.2.any (patMatches orig) && decide (pr.1 ≠ orig)) with
          | some pr => pr.1
          | none => orig)) := by
  refine ⟨fun _ _ => rfl, fun _ _ => rfl, ?_⟩
  intro table orig
  induction table with
  | nil => rfl
  | cons pr rest ih =>
    rcases pr with ⟨std, pats⟩
    simp only [chooseNewName]
    by_cases hany : pats.any (patMatches orig) = true
    · by_cases hne : std = orig
      · rw [if_neg (by simp [hne]), ih]
        simp [List.find?_cons, hany, hne]
      · rw [if_pos (by simp [hany, hne])]
        simp [List.find?_cons, hany, hne]
    · rw [if_neg (by simp [hany]), ih]
      simp [List.find?_cons, hany]

/-- Claim C7, counterexample: `diff_summary` is not a structured value of
three integers — evaluating the program's `summarize_diff` on a concrete
delta yields the single flat formatted string. -/
theorem C7_counterexample :
    summarize_diff ["+ x", "- y", "- z", "?  ^"] = "Added: 1, Removed: 2, Changed: 1" := by
  decide

/-- Claim C7, amended: `diff_summary` is the flat string
`"Added: a, Removed: r, Changed: c"` rendering the three non-negative
counts of delta lines marked `+ ` (only in rebuilt), `- ` (only in
original) and `? ` (the differencer's intraline hint lines). -/
theorem C7_theorem : ∀ diff : List String,
    summarize_diff diff = renderDiffSummary (diff_summary_spec diff) := fun _ => rfl

/-- Claim C8, counterexample: with a rule set whose group regex fails to
compile, the batch does NOT fail before any file is processed — both files
of a two-file batch are still read (4 reads), each raising and yielding a
null per-file result, with 0 processed and 0 written. -/
theorem C8_counterexample :
    analyze_model true (some rawBad) [("TVs/a.ir", sfA, sfA), ("TVs/b.ir", sfA, sfA)]
        (0, 0, 0) = (0, 4, 0) ∧ (4 : Nat) ≠ 0 := by
  constructor <;> decide

/-- Claim C8, amended: rule regexes are compiled per file inside
normalization, not before the batch; under a rule set whose group
compilation fails, every file in the batch is still read (two reads per
file), each file's processing raises and is caught as a null result, no
file is processed or written, and the batch runs to completion. -/
theorem C8_theorem : ∀ (raw : RawMapping)
    (files : List (String × SourceFile × SourceFile)) (acc : Nat × Nat × Nat),
    compileGroupsE raw.groups = Except.error () →
    analyze_model true (some raw) files acc = (acc.1, acc.2.1 + 2 * files.length, acc.2.2) :=
  fun _ files acc h => analyze_model_error h files acc

/-- Claim C8, witness: the failing rule set `rawBad` over a one-file
batch. -/
theorem C8_witness :
    analyze_model true (some rawBad) [("TVs/a.ir", sfA, sfA)] (0, 0, 0) = (0, 0 + 2 * 1, 0) :=
  C8_theorem rawBad [("TVs/a.ir", sfA, sfA)] (0, 0, 0) rfl

/-- Claim C9, counterexample: on a file holding the single byte `0xFF`, the
reconciliation engine's reader succeeds with the replacement character —
although the strict UTF-8 decode fails — while the four-encoding fallback
(which lives in `decode-irdb-cli.py`) would return the cp1252 text `ÿ`: the
engine does not perform the fallback, and an encoding failure is silently
absorbed into a successful read. -/
theorem C9_counterexample :
    read_file fXFF = some ["�"] ∧ fXFF.strictDecode "utf-8" = none ∧
      read_file_content fXFF = some "ÿ" ∧ ("ÿ" : String) ≠ "�" := by
  refine ⟨by decide, rfl, by decide, by decide⟩

/-- Claim C9, amended: the reconciliation engine's own reader
(`read_file`) decodes with UTF-8 `errors='replace'`, which never fails on
encoding — it returns null iff the OS-level open/read fails; the
four-encoding fallback (utf-8, cp1252, iso-8859-1, utf-16, in that fixed
order) belongs to `decode-irdb-cli.py`'s `read_file_content`, which
returns null iff every strict decode fails. -/
theorem C9_theorem : ∀ f : SourceFile,
    (read_file f = none ↔ f.openOk = false) ∧
    (read_file_content f = none ↔
      encodings.all (fun enc => (f.strictDecode enc).isNone) = true) := by
  intro f
  constructor
  · unfold read_file
    rcases hb : f.openOk <;> simp [hb]
  · unfold read_file_content encodings
    rcases h1 : f.strictDecode "utf-8" with _ | v1 <;>
      rcases h2 : f.strictDecode "cp1252" with _ | v2 <;>
        rcases h3 : f.strictDecode "iso-8859-1" with _ | v3 <;>
          rcases h4 : f.strictDecode "utf-16" with _ | v4 <;>
            simp [List.findSome?, h1, h2, h3, h4]

/-- Claim C10: whenever the extracted header block of the original file is
non-empty, the rebuild stage re-adds no comment block (`comments_readded`
is 0) and its output always ends in a `#` line — the header ends in `#`,
every record emission re-establishes it, so the comment-emission condition
is false for every record. -/
theorem C10_theorem : ∀ (original decoded : List String) (normalize : Bool)
    (mapping : Option Mapping) (file_path : String),
    extract_initial original ≠ [] →
    (rebuild_stage original decoded normalize mapping file_path).2 = 0 ∧
    endsWithHash (rebuild_stage original decoded normalize mapping file_path).1 = true ∧
    (clean_and_deduplicate original decoded normalize mapping file_path).2.2.2 = 0 := by
  intro original decoded normalize mapping file_path h
  have hwf : ∀ e ∈ (norm_stage original decoded normalize mapping file_path).1, sigWF e := by
    intro e he
    rcases normalize with _ | _
    · exact (all_signals_mem he).2
    · rcases mapping with _ | m
      · exact (all_signals_mem he).2
      · simp only [norm_stage, normalize_button_names, List.mem_map] at he
        rcases he with ⟨x, hx, rfl⟩
        exact normalizeEntry_sigWF (all_signals_mem hx).2
  have hsv : ∀ e ∈ (surviving original decoded normalize mapping file_path).map (·.2),
      sigWF e := by
    intro e he
    rcases List.mem_map.mp he with ⟨p, hp, rfl⟩
    exact (dedupFold_values sigWF _ [] 0 hwf (by intro q hq; simp at hq) p hp).1
  have hfold := rebuild_fold
    ((surviving original decoded normalize mapping file_path).map (·.2)) hsv
    (extract_initial original) 0 h (extract_initial_endsHash h)
  exact ⟨hfold.1, hfold.2.2, hfold.1⟩

/-- Claim C10, witness: the end-to-end example's original file has a
non-empty header, and its processing re-adds no comments. -/
theorem C10_witness :
    (clean_and_deduplicate origEx decEx false none "").2.2.2 = 0 :=
  (C10_theorem origEx decEx false none "" (by decide)).2.2

end IRClean

